import Mathlib

/-!
Shallow embedding of the license-classificator service.

The embedding follows the Python sources:
  app/db/models.py      — the `License` entity
  app/db/repo.py        — `LicenseRepo` (upsert_many, list_all, get, update_manual, update_llm)
  app/llm/ollama_client.py, app/llm/openai_client.py — prompt building and the
    post-parse extraction / truncation / fallback step of `classify_license`
  app/services/classifier.py — `get_llm_client` provider selection
  app/services/excel_io.py   — `read_licenses_from_xlsx` row mapping, `export_to_xlsx`
  app/api/routes.py     — the `/classify` batch cycle and the PATCH route

Python strings are sequences of code points, modelled as Lean `String`
(slicing `s[:n]` is `pyTrunc`, `str.strip()` is `pyStrip`, `str.lower()` is
`pyLower`, all defined over `String.data`).  Python `int` is `Int`.
The SQL table keyed by the primary key `license_id` is modelled as a
`List License`; primary-key lookup (`session.get`) is `find?` on the id.
Network transport and JSON parsing are outside the embedding: a model reply
already parsed into a JSON object is a `ParsedObj`, and a parse failure
propagates in the code before any of the embedded logic runs.
-/

/-- The `License` row of app/db/models.py: primary key, description, and the
three classification fields, each `None` until classified. -/
structure License where
  license_id : Int
  license_description : String
  typology : Option String := none
  explanation : Option String := none
  decided_by : Option String := none
deriving Repr, DecidableEq

/-- The license table, keyed by `license_id`. -/
abbrev Store := List License

/-- Python string slicing `s[:n]`: the first `n` code points. -/
def pyTrunc (s : String) (n : Nat) : String := String.mk (s.data.take n)

/-- Python `str.strip()`: drop leading and trailing whitespace. -/
def pyStrip (s : String) : String :=
  String.mk (((s.data.dropWhile Char.isWhitespace).reverse.dropWhile Char.isWhitespace).reverse)

/-- Python `str.lower()` (the selector strings compared are ASCII). -/
def pyLower (s : String) : String := String.mk (s.data.map Char.toLower)

/-- Models `LicenseRepo.get` / `session.get(License, id)`: primary-key lookup. -/
def getLicense (s : Store) (id : Int) : Option License :=
  s.find? (fun r => r.license_id == id)

/-- Mutating the row with primary key `id` in place (the ORM updates the
fetched object; the primary key itself is never changed by any `f` used). -/
def setRecord (s : Store) (id : Int) (f : License → License) : Store :=
  s.map (fun r => if r.license_id == id then f r else r)

/-- The mutation done by the `existing` branch of `upsert_many`:
`existing.license_description = lic.license_description`. -/
def descSet (d : String) (r : License) : License := { r with license_description := d }

/-- One iteration of the loop in `LicenseRepo.upsert_many`. -/
def upsertOne (s : Store) (lic : License) : Store :=
  match getLicense s lic.license_id with
  | some _ => setRecord s lic.license_id (descSet lic.license_description)
  | none => s ++ [lic]

/-- Models `LicenseRepo.upsert_many`: for each incoming record, update the existing
row's description, or insert the record. -/
def upsert_many (s : Store) (items : List License) : Store := items.foldl upsertOne s

/-- The `ORDER BY license_id` ordering used by `list_all`. -/
def licLe (a b : License) : Prop := a.license_id ≤ b.license_id

instance : DecidableRel licLe := fun a b => Int.decLe a.license_id b.license_id

instance : IsTotal License licLe := ⟨fun a b => Int.le_total a.license_id b.license_id⟩

instance : IsTrans License licLe := ⟨fun _ _ _ h1 h2 => le_trans h1 h2⟩

/-- Models `LicenseRepo.list_all`: every record, sorted ascending by `license_id`. -/
def list_all (s : Store) : List License := List.insertionSort licLe s

/-- The field mutation of `update_manual`: typology and truncated explanation,
`decided_by = "manual"`. -/
def manualSet (t e : String) (r : License) : License :=
  { r with typology := some t, explanation := some (pyTrunc e 150), decided_by := some "manual" }

/-- The field mutation of `update_llm`: typology and truncated explanation,
`decided_by = "llm"`. -/
def llmSet (t e : String) (r : License) : License :=
  { r with typology := some t, explanation := some (pyTrunc e 150), decided_by := some "llm" }

/-- Models `LicenseRepo.update_manual`: raises `ValueError("License not found")` when
the id is absent, else unconditionally applies the manual fields and returns
the updated row. -/
def update_manual (s : Store) (id : Int) (t e : String) :
    Except String (Store × License) :=
  match getLicense s id with
  | none => Except.error "License not found"
  | some lic => Except.ok (setRecord s id (manualSet t e), manualSet t e lic)

/-- Models `LicenseRepo.update_llm`: silent no-op when the id is absent, skip when the
row has `decided_by == "manual"`, else apply the llm fields. -/
def update_llm (s : Store) (id : Int) (t e : String) : Store :=
  match getLicense s id with
  | none => s
  | some lic =>
    if lic.decided_by = some "manual" then s
    else setRecord s id (llmSet t e)

/-- The PATCH /licenses/\x7blicense_id\x7d route: `update_manual`, with
`ValueError` caught and surfaced as HTTP 404 (store unchanged). -/
def patch_license (s : Store) (id : Int) (t e : String) :
    Store × Nat × Option License :=
  match update_manual s id t e with
  | Except.ok (s2, lic) => (s2, 200, some lic)
  | Except.error _ => (s, 404, none)

/-- The result of `classify_license` (app/llm/base.py `LLMResult`). -/
structure LLMResult where
  typology : String
  explanation : String
deriving Repr, DecidableEq

/-- A model reply already parsed as a JSON object, before key extraction:
`obj.get("typology", "")` reads the field or the empty-string default, so each
key is an optional string (non-string JSON values would raise earlier at
`.strip()` and never reach the embedded logic). -/
structure ParsedObj where
  typology : Option String := none
  explanation : Option String := none

/-- The `ALLOWED` label set, identical in both backend modules. -/
def ALLOWED : List String :=
  ["Productivity", "Design", "Communication", "Development", "Finance", "Marketing"]

/-- The fixed fallback explanation sentence, identical in both backends. -/
def FALLBACK_EXPLANATION : String :=
  "Fallback classification due to invalid model output."

/-- Python `repr(sorted(ALLOWED))`, as interpolated by `_prompt` in
app/llm/ollama_client.py. -/
def sortedAllowedRepr : String :=
  "[\x27Communication\x27, \x27Design\x27, \x27Development\x27, \x27Finance\x27, \x27Marketing\x27, \x27Productivity\x27]"

/-- Models `_prompt` of app/llm/ollama_client.py: the f-string after its final
`.strip()`. -/
def _prompt (name : String) : String :=
  "Classify this license name: \"" ++
    (name ++
      ("\"\n\nRules:\n- typology must be one of: " ++
        (sortedAllowedRepr ++
          "\n- explanation must be <= 150 characters\nReturn JSON like:\n\x7b\"typology\":\"...\", \"explanation\":\"...\"\x7d")))

/-- The `SYSTEM` string of app/llm/ollama_client.py. -/
def SYSTEM : String :=
  "You classify software license names into exactly one typology: Productivity, Design, Communication, Development, Finance, Marketing. Return strict JSON only."

/-- The user message `msg` built inside `OpenAIClient.classify_license`
(app/llm/openai_client.py), after its `.strip()`. -/
def openaiUserMsg (name : String) : String :=
  "Classify \"" ++
    (name ++
      "\" into exactly one of:\nProductivity, Design, Communication, Development, Finance, Marketing.\nReturn strict JSON: \x7b\"typology\":\"...\", \"explanation\":\"<=150 chars\"\x7d")

/-- The system message of the OpenAI backend. -/
def openaiSystemMsg : String := "Return strict JSON only. No prose."

/-- The post-parse steps of `OllamaClient.classify_license`: extract the two
keys, strip, truncate the explanation to 150, and apply the validation
fallback (`"Productivity"` plus, for an empty explanation, the fixed
sentence). -/
def ollama_classify_extract (obj : ParsedObj) : LLMResult :=
  let typology := pyStrip (obj.typology.getD "")
  let explanation := pyTrunc (pyStrip (obj.explanation.getD "")) 150
  if typology ∈ ALLOWED then
    { typology := typology, explanation := explanation }
  else
    { typology := "Productivity",
      explanation := pyTrunc (if explanation = "" then FALLBACK_EXPLANATION else explanation) 150 }

/-- The post-parse steps of `OpenAIClient.classify_license`
(app/llm/openai_client.py), transcribed from that file. -/
def openai_classify_extract (obj : ParsedObj) : LLMResult :=
  let typology := pyStrip (obj.typology.getD "")
  let explanation := pyTrunc (pyStrip (obj.explanation.getD "")) 150
  if typology ∈ ALLOWED then
    { typology := typology, explanation := explanation }
  else
    { typology := "Productivity",
      explanation := pyTrunc (if explanation = "" then FALLBACK_EXPLANATION else explanation) 150 }

/-- The two concrete backends of app/services/classifier.py. -/
inductive ProviderKind where
  | ollama
  | openai
deriving Repr, DecidableEq

/-- Models `get_llm_client` of app/services/classifier.py:
`OpenAIClient()` when `settings.llm_provider.lower() == "openai"`, else
`OllamaClient()`. -/
def get_llm_client (llm_provider : String) : ProviderKind :=
  if pyLower llm_provider = "openai" then ProviderKind.openai else ProviderKind.ollama

/-- The row mapping of `read_licenses_from_xlsx` (app/services/excel_io.py):
each ("License ID", "License Description") pair becomes a `License` with the
description stripped and the classification fields absent. -/
def read_licenses (rows : List (Int × String)) : List License :=
  rows.map (fun p =>
    { license_id := p.1, license_description := pyStrip p.2 })

/-- A cell of the exported spreadsheet. -/
inductive XCell where
  | int (n : Int)
  | str (v : String)
  | empty
deriving Repr, DecidableEq

/-- A `None` field exports as an empty cell, a string as itself. -/
def cellOfOpt : Option String → XCell
  | none => XCell.empty
  | some v => XCell.str v

/-- The five output column headers of `export_to_xlsx`. -/
def exportColumnNames : List String :=
  ["License ID", "License Description", "Typology", "Explanation", "Decided By"]

/-- The written worksheet: header row (the frame's columns) plus data rows. -/
structure XlsxTable where
  columns : List String
  rows : List (List XCell)
deriving Repr, DecidableEq

/-- The row built for one record by `export_to_xlsx`. -/
def exportRow (r : License) : List XCell :=
  [XCell.int r.license_id, XCell.str r.license_description,
    cellOfOpt r.typology, cellOfOpt r.explanation, cellOfOpt r.decided_by]

/-- Models `export_to_xlsx` (app/services/excel_io.py): the frame is built with
`pd.DataFrame` from one dict per record, so its columns are the dict keys —
and the empty frame built from an empty record list has no columns at all;
`to_excel(index=False)` then writes the columns as the header row followed by
one row per record, in the given order. -/
def export_to_xlsx (records : List License) : XlsxTable :=
  { columns := if records.isEmpty then [] else exportColumnNames,
    rows := records.map exportRow }

/-- One iteration of the classification loop in `classify_all`
(app/api/routes.py): skip when the snapshot record is manual, else classify
its description and apply `update_llm`. -/
def cycleStep (provider : String → LLMResult) (s : Store) (r : License) : Store :=
  if r.decided_by = some "manual" then s
  else
    update_llm s r.license_id (provider r.license_description).typology
      (provider r.license_description).explanation

/-- The store transformation of one POST /classify cycle (`classify_all`):
ingest via `upsert_many`, then walk the `list_all` snapshot applying
`cycleStep` sequentially. -/
def run_classification_cycle (provider : String → LLMResult) (input : List License)
    (store : Store) : Store :=
  let store1 := upsert_many store input
  (list_all store1).foldl (cycleStep provider) store1

/-- The full `classify_all` response: final store, exported count, and the
written worksheet. -/
def classify_all (provider : String → LLMResult) (input : List License)
    (store : Store) : Store × Nat × XlsxTable :=
  let s2 := run_classification_cycle provider input store
  let updated := list_all s2
  (s2, updated.length, export_to_xlsx updated)

/-- One classification run: the provider active for that run and the parsed
input spreadsheet it ingests. -/
structure CycleRun where
  provider : String → LLMResult
  input : List License

/-- Arbitrarily many batch re-runs, each with its own provider behaviour and
input file. -/
def run_cycles (runs : List CycleRun) (store : Store) : Store :=
  runs.foldl (fun s run => run_classification_cycle run.provider run.input s) store

/-! ### Store algebra: lookup, record mutation, upsert -/

/-- The primary keys of a store. -/
def ids (s : Store) : List Int := s.map License.license_id

theorem getLicense_nil (id : Int) : getLicense [] id = none := rfl

theorem license_id_of_getLicense {s : Store} {id : Int} {l : License}
    (h : getLicense s id = some l) : l.license_id = id := by
  have := List.find?_some h
  simpa using this

theorem mem_of_getLicense {s : Store} {id : Int} {l : License}
    (h : getLicense s id = some l) : l ∈ s :=
  List.mem_of_find?_eq_some h

theorem getLicense_eq_none_iff {s : Store} {id : Int} :
    getLicense s id = none ↔ id ∉ ids s := by
  constructor
  · intro h hmem
    rcases List.mem_map.mp hmem with ⟨r, hr, hid⟩
    have := List.find?_eq_none.mp h r hr
    simp [hid] at this
  · intro h
    apply List.find?_eq_none.mpr
    intro r hr
    simp only [beq_iff_eq]
    intro hid
    exact h (List.mem_map.mpr ⟨r, hr, hid⟩)

theorem getLicense_isSome_of_mem_ids {s : Store} {id : Int} (h : id ∈ ids s) :
    (getLicense s id).isSome := by
  cases hfind : getLicense s id with
  | none => exact absurd h (getLicense_eq_none_iff.mp hfind)
  | some l => rfl

theorem getLicense_append (s1 s2 : Store) (id : Int) :
    getLicense (s1 ++ s2) id = (getLicense s1 id).or (getLicense s2 id) := by
  simp [getLicense, List.find?_append]

theorem getLicense_singleton_self (lic : License) :
    getLicense [lic] lic.license_id = some lic := by
  simp [getLicense, List.find?]

theorem getLicense_cons (r : License) (rest : Store) (id : Int) :
    getLicense (r :: rest) id =
      if r.license_id = id then some r else getLicense rest id := by
  by_cases h : r.license_id = id
  · simp [getLicense, List.find?, h]
  · have hb : (r.license_id == id) = false := beq_eq_false_iff_ne.mpr h
    simp [getLicense, List.find?, hb, h]

theorem setRecord_cons (r : License) (rest : Store) (id : Int) (f : License → License) :
    setRecord (r :: rest) id f =
      (if r.license_id = id then f r else r) :: setRecord rest id f := by
  by_cases h : r.license_id = id <;> simp [setRecord, h]

theorem getLicense_setRecord_self (s : Store) (id : Int) (f : License → License)
    (hf : ∀ r, (f r).license_id = r.license_id) :
    getLicense (setRecord s id f) id = (getLicense s id).map f := by
  induction s with
  | nil => rfl
  | cons r rest ih =>
    rw [setRecord_cons]
    by_cases h : r.license_id = id
    · simp [getLicense_cons, h, hf r]
    · simp [getLicense_cons, h, ih]

theorem getLicense_setRecord_ne (s : Store) (id j : Int) (f : License → License)
    (hf : ∀ r, (f r).license_id = r.license_id) (hne : j ≠ id) :
    getLicense (setRecord s id f) j = getLicense s j := by
  induction s with
  | nil => rfl
  | cons r rest ih =>
    rw [setRecord_cons]
    by_cases h : r.license_id = id
    · have h1 : (f r).license_id ≠ j := by rw [hf r, h]; exact Ne.symm hne
      simp [getLicense_cons, h, h1, Ne.symm hne, ih]
    · by_cases hj : r.license_id = j
      · simp [getLicense_cons, h, hj, hne, ih]
      · simp [getLicense_cons, h, hj, ih]

theorem ids_setRecord (s : Store) (id : Int) (f : License → License)
    (hf : ∀ r, (f r).license_id = r.license_id) :
    ids (setRecord s id f) = ids s := by
  simp only [ids, setRecord, List.map_map]
  apply List.map_congr_left
  intro r _
  by_cases h : r.license_id = id <;> simp [h, hf r]

theorem setRecord_absent (s : Store) (id : Int) (f : License → License)
    (h : getLicense s id = none) : setRecord s id f = s := by
  induction s with
  | nil => rfl
  | cons r rest ih =>
    rw [getLicense_cons] at h
    by_cases hr : r.license_id = id
    · simp [hr] at h
    · simp only [hr, if_false] at h
      simp [setRecord_cons, hr, ih h]

theorem setRecord_append (s1 s2 : Store) (id : Int) (f : License → License) :
    setRecord (s1 ++ s2) id f = setRecord s1 id f ++ setRecord s2 id f := by
  simp [setRecord]

theorem descSet_license_id (d : String) (r : License) :
    (descSet d r).license_id = r.license_id := rfl

theorem manualSet_license_id (t e : String) (r : License) :
    (manualSet t e r).license_id = r.license_id := rfl

theorem llmSet_license_id (t e : String) (r : License) :
    (llmSet t e r).license_id = r.license_id := rfl

theorem upsertOne_present {s : Store} {lic : License} {l : License}
    (h : getLicense s lic.license_id = some l) :
    upsertOne s lic = setRecord s lic.license_id (descSet lic.license_description) := by
  simp [upsertOne, h]

theorem upsertOne_absent {s : Store} {lic : License}
    (h : getLicense s lic.license_id = none) :
    upsertOne s lic = s ++ [lic] := by
  simp [upsertOne, h]

theorem getLicense_upsertOne_ne {s : Store} {lic : License} {j : Int}
    (hne : lic.license_id ≠ j) :
    getLicense (upsertOne s lic) j = getLicense s j := by
  cases h : getLicense s lic.license_id with
  | some l =>
    rw [upsertOne_present h]
    exact getLicense_setRecord_ne s lic.license_id j _
      (descSet_license_id lic.license_description) (Ne.symm hne)
  | none =>
    rw [upsertOne_absent h, getLicense_append]
    have : getLicense [lic] j = none := by
      rw [getLicense_cons]
      simp [hne]
      rfl
    rw [this]
    cases getLicense s j <;> rfl

theorem getLicense_upsertOne_self {s : Store} (lic : License) :
    getLicense (upsertOne s lic) lic.license_id =
      some ((getLicense s lic.license_id).elim lic (descSet lic.license_description)) := by
  cases h : getLicense s lic.license_id with
  | some l =>
    rw [upsertOne_present h, getLicense_setRecord_self s lic.license_id _
      (descSet_license_id lic.license_description), h]
    rfl
  | none =>
    rw [upsertOne_absent h, getLicense_append, h, getLicense_singleton_self]
    rfl

theorem mem_ids_upsertOne {s : Store} {lic : License} {j : Int} :
    j ∈ ids (upsertOne s lic) ↔ j ∈ ids s ∨ j = lic.license_id := by
  cases h : getLicense s lic.license_id with
  | some l =>
    rw [upsertOne_present h, ids_setRecord s lic.license_id _
      (descSet_license_id lic.license_description)]
    constructor
    · exact Or.inl
    · rintro (hm | rfl)
      · exact hm
      · exact List.mem_map.mpr ⟨l, mem_of_getLicense h, license_id_of_getLicense h⟩
  | none =>
    rw [upsertOne_absent h]
    simp [ids]

theorem nodup_ids_upsertOne {s : Store} {lic : License}
    (h : (ids s).Nodup) : (ids (upsertOne s lic)).Nodup := by
  cases hf : getLicense s lic.license_id with
  | some l =>
    rw [upsertOne_present hf, ids_setRecord s lic.license_id _
      (descSet_license_id lic.license_description)]
    exact h
  | none =>
    rw [upsertOne_absent hf]
    have hni : lic.license_id ∉ ids s := getLicense_eq_none_iff.mp hf
    simp only [ids, List.map_append, List.map_cons, List.map_nil, List.nodup_append]
    refine ⟨h, by simp, ?_⟩
    intro x hx he
    simp only [List.mem_singleton] at he
    exact hni (he ▸ hx)

theorem nodup_ids_upsert_many {s : Store} (items : List License)
    (h : (ids s).Nodup) : (ids (upsert_many s items)).Nodup := by
  induction items generalizing s with
  | nil => exact h
  | cons a rest ih => exact ih (nodup_ids_upsertOne h)

theorem getLicense_upsertOne_evol {s : Store} {id : Int} {l : License} (lic : License)
    (h : getLicense s id = some l) :
    ∃ d, getLicense (upsertOne s lic) id = some { l with license_description := d } := by
  by_cases hid : lic.license_id = id
  · subst hid
    rw [getLicense_upsertOne_self, h]
    exact ⟨lic.license_description, rfl⟩
  · rw [getLicense_upsertOne_ne hid, h]
    exact ⟨l.license_description, rfl⟩

theorem getLicense_upsert_many_evol {s : Store} {id : Int} {l : License}
    (items : List License) (h : getLicense s id = some l) :
    ∃ d, getLicense (upsert_many s items) id = some { l with license_description := d } := by
  induction items generalizing s l with
  | nil => exact ⟨l.license_description, h⟩
  | cons a rest ih =>
    rcases getLicense_upsertOne_evol a h with ⟨d0, h0⟩
    rcases ih h0 with ⟨d, hd⟩
    exact ⟨d, hd⟩

theorem mem_ids_upsert_many {s : Store} {j : Int} (items : List License) :
    j ∈ ids (upsert_many s items) ↔ j ∈ ids s ∨ j ∈ ids items := by
  induction items generalizing s with
  | nil => simp [upsert_many, ids]
  | cons a rest ih =>
    show j ∈ ids (upsert_many (upsertOne s a) rest) ↔ _
    rw [ih, mem_ids_upsertOne]
    have hcons : ids (a :: rest) = a.license_id :: ids rest := rfl
    rw [hcons, List.mem_cons]
    tauto

theorem getLicense_upsert_many_of_not_mem {s : Store} {j : Int}
    (items : List License) (hni : ∀ a ∈ items, a.license_id ≠ j) :
    getLicense (upsert_many s items) j = getLicense s j := by
  induction items generalizing s with
  | nil => rfl
  | cons a rest ih =>
    show getLicense (upsert_many (upsertOne s a) rest) j = _
    rw [ih (fun b hb => hni b (List.mem_cons_of_mem a hb)),
      getLicense_upsertOne_ne (hni a (List.mem_cons_self a rest))]

theorem getLicense_upsert_many_inserted {s : Store} {a : License}
    (items : List License) (hmem : a ∈ items)
    (hnodup : (ids items).Nodup) (habs : getLicense s a.license_id = none) :
    getLicense (upsert_many s items) a.license_id = some a := by
  induction items generalizing s with
  | nil => cases hmem
  | cons b rest ih =>
    have hcons : ids (b :: rest) = b.license_id :: ids rest := rfl
    rw [hcons] at hnodup
    rcases List.mem_cons.mp hmem with rfl | hmem2
    · show getLicense (upsert_many (upsertOne s a) rest) a.license_id = some a
      have hrest : ∀ c ∈ rest, c.license_id ≠ a.license_id := by
        intro c hc he
        exact (List.nodup_cons.mp hnodup).1 (he ▸ List.mem_map.mpr ⟨c, hc, rfl⟩)
      rw [getLicense_upsert_many_of_not_mem rest hrest, upsertOne_absent habs,
        getLicense_append, habs, getLicense_singleton_self]
      rfl
    · show getLicense (upsert_many (upsertOne s b) rest) a.license_id = some a
      have hne : b.license_id ≠ a.license_id := by
        intro he
        exact (List.nodup_cons.mp hnodup).1
          (he ▸ List.mem_map.mpr ⟨a, hmem2, rfl⟩)
      have habs2 : getLicense (upsertOne s b) a.license_id = none := by
        rw [getLicense_upsertOne_ne hne]
        exact habs
      exact ih hmem2 (List.nodup_cons.mp hnodup).2 habs2

theorem getLicense_upsert_many_updated {s : Store} {a : License} {lic : License}
    (items : List License) (hmem : a ∈ items)
    (hnodup : (ids items).Nodup) (hfind : getLicense s a.license_id = some lic) :
    getLicense (upsert_many s items) a.license_id =
      some { lic with license_description := a.license_description } := by
  induction items generalizing s with
  | nil => cases hmem
  | cons b rest ih =>
    have hcons : ids (b :: rest) = b.license_id :: ids rest := rfl
    rw [hcons] at hnodup
    rcases List.mem_cons.mp hmem with rfl | hmem2
    · show getLicense (upsert_many (upsertOne s a) rest) a.license_id = _
      have hrest : ∀ c ∈ rest, c.license_id ≠ a.license_id := by
        intro c hc he
        exact (List.nodup_cons.mp hnodup).1 (he ▸ List.mem_map.mpr ⟨c, hc, rfl⟩)
      rw [getLicense_upsert_many_of_not_mem rest hrest, upsertOne_present hfind,
        getLicense_setRecord_self s _ _ (descSet_license_id a.license_description),
        hfind]
      rfl
    · show getLicense (upsert_many (upsertOne s b) rest) a.license_id = _
      have hne : b.license_id ≠ a.license_id := by
        intro he
        exact (List.nodup_cons.mp hnodup).1
          (he ▸ List.mem_map.mpr ⟨a, hmem2, rfl⟩)
      have hfind2 : getLicense (upsertOne s b) a.license_id = some lic := by
        rw [getLicense_upsertOne_ne hne]
        exact hfind
      exact ih hmem2 (List.nodup_cons.mp hnodup).2 hfind2

/-! ### Idempotence of upsert_many -/

theorem setRecord_setRecord_same (s : Store) (id : Int) (f : License → License)
    (hf : ∀ r, (f r).license_id = r.license_id)
    (hff : ∀ r, f (f r) = f r) :
    setRecord (setRecord s id f) id f = setRecord s id f := by
  simp only [setRecord, List.map_map]
  apply List.map_congr_left
  intro r _
  by_cases h : r.license_id = id
  · simp [Function.comp, h, hf r, hff r]
  · simp [Function.comp, h]

theorem setRecord_comm (s : Store) (i j : Int) (f g : License → License)
    (hf : ∀ r, (f r).license_id = r.license_id)
    (hg : ∀ r, (g r).license_id = r.license_id)
    (hij : i ≠ j) :
    setRecord (setRecord s i f) j g = setRecord (setRecord s j g) i f := by
  simp only [setRecord, List.map_map]
  apply List.map_congr_left
  intro r _
  by_cases hi : r.license_id = i
  · have : r.license_id ≠ j := by rw [hi]; exact hij
    simp [Function.comp, hi, this, hf r, hij]
  · by_cases hj : r.license_id = j
    · have hji : j ≠ i := Ne.symm hij
      simp [Function.comp, hi, hj, hg r, hji]
    · simp [Function.comp, hi, hj]

theorem upsertOne_idem (s : Store) (a : License) :
    upsertOne (upsertOne s a) a = upsertOne s a := by
  cases h : getLicense s a.license_id with
  | some l =>
    rw [upsertOne_present h]
    have h2 : getLicense (setRecord s a.license_id (descSet a.license_description))
        a.license_id = some (descSet a.license_description l) := by
      rw [getLicense_setRecord_self s a.license_id _
        (descSet_license_id a.license_description), h]
      rfl
    rw [upsertOne_present h2]
    exact setRecord_setRecord_same s a.license_id _
      (descSet_license_id a.license_description) (fun r => rfl)
  | none =>
    rw [upsertOne_absent h]
    have h2 : getLicense (s ++ [a]) a.license_id = some a := by
      rw [getLicense_append, h, getLicense_singleton_self]
      rfl
    rw [upsertOne_present h2, setRecord_append, setRecord_absent s _ _ h]
    have : setRecord [a] a.license_id (descSet a.license_description) = [a] := by
      simp [setRecord_cons, setRecord, descSet]
    rw [this]

theorem upsertOne_swap (s : Store) (a b : License)
    (hne : b.license_id ≠ a.license_id)
    (ha : (getLicense s a.license_id).isSome) :
    upsertOne (upsertOne s b) a = upsertOne (upsertOne s a) b := by
  rcases Option.isSome_iff_exists.mp ha with ⟨la, hla⟩
  rw [upsertOne_present hla]
  cases hb : getLicense s b.license_id with
  | some lb =>
    rw [upsertOne_present hb]
    have ha2 : getLicense (setRecord s b.license_id (descSet b.license_description))
        a.license_id = some la := by
      rw [getLicense_setRecord_ne s b.license_id a.license_id _
        (descSet_license_id b.license_description) (fun h => hne h.symm)]
      exact hla
    have hb2 : getLicense (setRecord s a.license_id (descSet a.license_description))
        b.license_id = some lb := by
      rw [getLicense_setRecord_ne s a.license_id b.license_id _
        (descSet_license_id a.license_description) hne]
      exact hb
    rw [upsertOne_present ha2, upsertOne_present hb2]
    exact setRecord_comm s b.license_id a.license_id _ _
      (descSet_license_id b.license_description)
      (descSet_license_id a.license_description) hne
  | none =>
    rw [upsertOne_absent hb]
    have ha2 : getLicense (s ++ [b]) a.license_id = some la := by
      rw [getLicense_append, hla]
      rfl
    have hb2 : getLicense (setRecord s a.license_id (descSet a.license_description))
        b.license_id = none := by
      rw [getLicense_setRecord_ne s a.license_id b.license_id _
        (descSet_license_id a.license_description) hne]
      exact hb
    rw [upsertOne_present ha2, upsertOne_absent hb2, setRecord_append]
    have : setRecord [b] a.license_id (descSet a.license_description) = [b] := by
      simp [setRecord, hne]
    rw [this]

theorem upsert_many_upsertOne_comm :
    ∀ (items : List License) (a : License) (s : Store),
      (getLicense s a.license_id).isSome → a.license_id ∉ ids items →
      upsertOne (upsert_many s items) a = upsert_many (upsertOne s a) items := by
  intro items
  induction items with
  | nil =>
    intro a s _ _
    rfl
  | cons b rest ih =>
    intro a s ha hni
    have hbne : b.license_id ≠ a.license_id := by
      intro he
      exact hni (by simp [ids, he.symm])
    have hrest : a.license_id ∉ ids rest := by
      intro hm
      refine hni ?_
      have : ids (b :: rest) = b.license_id :: ids rest := rfl
      rw [this, List.mem_cons]
      exact Or.inr hm
    have ha2 : (getLicense (upsertOne s b) a.license_id).isSome := by
      rw [getLicense_upsertOne_ne hbne]
      exact ha
    show upsertOne (upsert_many (upsertOne s b) rest) a =
      upsert_many (upsertOne (upsertOne s a) b) rest
    calc upsertOne (upsert_many (upsertOne s b) rest) a
        = upsert_many (upsertOne (upsertOne s b) a) rest := ih a (upsertOne s b) ha2 hrest
      _ = upsert_many (upsertOne (upsertOne s a) b) rest := by
          rw [upsertOne_swap s a b hbne ha]

theorem upsert_many_idem :
    ∀ (items : List License) (s : Store), (ids items).Nodup →
      upsert_many (upsert_many s items) items = upsert_many s items := by
  intro items
  induction items with
  | nil =>
    intro s _
    rfl
  | cons a rest ih =>
    intro s hnodup
    have hcons : ids (a :: rest) = a.license_id :: ids rest := rfl
    rw [hcons] at hnodup
    have hna : a.license_id ∉ ids rest := (List.nodup_cons.mp hnodup).1
    have hnr : (ids rest).Nodup := (List.nodup_cons.mp hnodup).2
    have hpres : (getLicense (upsertOne s a) a.license_id).isSome := by
      rw [getLicense_upsertOne_self]
      rfl
    show upsert_many (upsert_many (upsertOne s a) rest) (a :: rest) =
      upsert_many (upsertOne s a) rest
    show upsert_many (upsertOne (upsert_many (upsertOne s a) rest) a) rest = _
    rw [upsert_many_upsertOne_comm rest a (upsertOne s a) hpres hna, upsertOne_idem]
    exact ih (upsertOne s a) hnr

/-! ### Classification-cycle lemmas -/

theorem getLicense_update_llm_ne {s : Store} {id j : Int} {t e : String}
    (hne : j ≠ id) :
    getLicense (update_llm s id t e) j = getLicense s j := by
  unfold update_llm
  cases h : getLicense s id with
  | none => rfl
  | some lic =>
    by_cases hm : lic.decided_by = some "manual"
    · simp [hm]
    · simp only [hm, if_false]
      exact getLicense_setRecord_ne s id j _ (llmSet_license_id t e) hne

theorem update_llm_manual_skip {s : Store} {id : Int} {t e : String} {l : License}
    (h : getLicense s id = some l) (hm : l.decided_by = some "manual") :
    update_llm s id t e = s := by
  simp [update_llm, h, hm]

theorem getLicense_update_llm_applied {s : Store} {id : Int} (t e : String) {l : License}
    (h : getLicense s id = some l) (hm : l.decided_by ≠ some "manual") :
    getLicense (update_llm s id t e) id = some (llmSet t e l) := by
  simp only [update_llm, h, hm, if_false]
  rw [getLicense_setRecord_self s id _ (llmSet_license_id t e), h]
  rfl

theorem getLicense_cycleStep_manual {p : String → LLMResult} {s : Store}
    {r : License} {id : Int} {l : License}
    (h : getLicense s id = some l) (hm : l.decided_by = some "manual") :
    getLicense (cycleStep p s r) id = some l := by
  unfold cycleStep
  by_cases hr : r.decided_by = some "manual"
  · simp [hr, h]
  · simp only [hr, if_false]
    by_cases hid : r.license_id = id
    · rw [hid, update_llm_manual_skip h hm]
      exact h
    · rw [getLicense_update_llm_ne (Ne.symm hid)]
      exact h

theorem getLicense_cycleFold_manual (p : String → LLMResult) (L : List License) :
    ∀ (s : Store) (id : Int) (l : License),
      getLicense s id = some l → l.decided_by = some "manual" →
      getLicense (L.foldl (cycleStep p) s) id = some l := by
  induction L with
  | nil =>
    intro s id l h _
    exact h
  | cons r rest ih =>
    intro s id l h hm
    exact ih (cycleStep p s r) id l (getLicense_cycleStep_manual h hm) hm

theorem getLicense_cycleFold_other_ids (p : String → LLMResult) (L : List License) :
    ∀ (s : Store) (id : Int),
      (∀ r ∈ L, r.license_id ≠ id) →
      getLicense (L.foldl (cycleStep p) s) id = getLicense s id := by
  induction L with
  | nil =>
    intro s id _
    rfl
  | cons r rest ih =>
    intro s id hne
    rw [List.foldl_cons, ih (cycleStep p s r) id (fun b hb => hne b (List.mem_cons_of_mem r hb))]
    unfold cycleStep
    by_cases hr : r.decided_by = some "manual"
    · simp [hr]
    · simp only [hr, if_false]
      exact getLicense_update_llm_ne (Ne.symm (hne r (List.mem_cons_self r rest)))

theorem manual_preserved_one_cycle {p : String → LLMResult} {input : List License}
    {s : Store} {id : Int} {l : License}
    (h : getLicense s id = some l) (hm : l.decided_by = some "manual") :
    ∃ d, getLicense (run_classification_cycle p input s) id =
      some { l with license_description := d } := by
  rcases getLicense_upsert_many_evol input h with ⟨d, hd⟩
  refine ⟨d, ?_⟩
  exact getLicense_cycleFold_manual p (list_all (upsert_many s input))
    (upsert_many s input) id _ hd hm

theorem cycleFold_classifies_of_nodup (p : String → LLMResult) (L : List License)
    (r : License) (s : Store)
    (hnodup : (ids L).Nodup) (hmem : r ∈ L)
    (hs : getLicense s r.license_id = some r)
    (hm : r.decided_by ≠ some "manual") :
    getLicense (L.foldl (cycleStep p) s) r.license_id =
      some (llmSet (p r.license_description).typology
        (p r.license_description).explanation r) := by
  rcases List.append_of_mem hmem with ⟨L1, L2, rfl⟩
  have hids : ids (L1 ++ r :: L2) = ids L1 ++ r.license_id :: ids L2 := by
    simp [ids]
  rw [hids] at hnodup
  rcases List.nodup_append.mp hnodup with ⟨_, hn2, hdisj⟩
  have h1 : ∀ b ∈ L1, b.license_id ≠ r.license_id := by
    intro b hb he
    exact hdisj (List.mem_map.mpr ⟨b, hb, rfl⟩) (he ▸ List.mem_cons_self _ _)
  have h2 : ∀ b ∈ L2, b.license_id ≠ r.license_id := by
    intro b hb he
    exact (List.nodup_cons.mp hn2).1 (he ▸ List.mem_map.mpr ⟨b, hb, rfl⟩)
  rw [List.foldl_append, List.foldl_cons,
    getLicense_cycleFold_other_ids p L2 _ _ h2]
  have hs1 : getLicense (L1.foldl (cycleStep p) s) r.license_id = some r := by
    rw [getLicense_cycleFold_other_ids p L1 s _ h1]
    exact hs
  have hstep : cycleStep p (L1.foldl (cycleStep p) s) r =
      update_llm (L1.foldl (cycleStep p) s) r.license_id
        (p r.license_description).typology (p r.license_description).explanation := by
    unfold cycleStep
    simp [hm]
  rw [hstep]
  exact getLicense_update_llm_applied _ _ hs1 hm

/-! ### Extraction facts -/

theorem string_length_mk (l : List Char) : (String.mk l).length = l.length := rfl

theorem pyTrunc_length_le (s : String) (n : Nat) : (pyTrunc s n).length ≤ n := by
  rw [pyTrunc, string_length_mk]
  exact s.data.length_take_le n

theorem ollama_extract_typology_mem (obj : ParsedObj) :
    (ollama_classify_extract obj).typology ∈ ALLOWED := by
  unfold ollama_classify_extract
  by_cases h : pyStrip (obj.typology.getD "") ∈ ALLOWED
  · rw [if_pos h]
    exact h
  · rw [if_neg h]
    show "Productivity" ∈ ALLOWED
    decide

theorem ollama_extract_explanation_le (obj : ParsedObj) :
    (ollama_classify_extract obj).explanation.length ≤ 150 := by
  unfold ollama_classify_extract
  by_cases h : pyStrip (obj.typology.getD "") ∈ ALLOWED
  · rw [if_pos h]
    exact pyTrunc_length_le _ 150
  · rw [if_neg h]
    exact pyTrunc_length_le _ 150

/-! ### The 150-character explanation invariant -/

/-- Every record of the store has an explanation of at most 150 characters
(an absent explanation counts as length 0). -/
def storeExplanationOk (s : Store) : Bool :=
  s.all (fun r => decide ((r.explanation.getD "").length ≤ 150))

theorem storeExplanationOk_iff {s : Store} :
    storeExplanationOk s = true ↔ ∀ r ∈ s, (r.explanation.getD "").length ≤ 150 := by
  simp [storeExplanationOk, List.all_eq_true]

theorem storeExplanationOk_setRecord {s : Store} {id : Int} {f : License → License}
    (h : storeExplanationOk s = true)
    (hf : ∀ r, ((f r).explanation.getD "").length ≤ 150 ∨ (f r).explanation = r.explanation) :
    storeExplanationOk (setRecord s id f) = true := by
  rw [storeExplanationOk_iff] at h ⊢
  intro r hr
  rcases List.mem_map.mp hr with ⟨r0, hr0, rfl⟩
  by_cases hc : r0.license_id = id
  · simp only [hc, if_pos, beq_self_eq_true]
    rcases hf r0 with hle | heq
    · exact hle
    · rw [heq]
      exact h r0 hr0
  · have hb : (r0.license_id == id) = false := beq_eq_false_iff_ne.mpr hc
    simp only [hb, Bool.false_eq_true, if_false]
    exact h r0 hr0

theorem explanation_llmSet (t e : String) (r : License) :
    (((llmSet t e r).explanation).getD "").length ≤ 150 := by
  show (pyTrunc e 150).length ≤ 150
  exact pyTrunc_length_le e 150

theorem explanation_manualSet (t e : String) (r : License) :
    (((manualSet t e r).explanation).getD "").length ≤ 150 := by
  show (pyTrunc e 150).length ≤ 150
  exact pyTrunc_length_le e 150

theorem storeExplanationOk_update_llm {s : Store} (id : Int) (t e : String)
    (h : storeExplanationOk s = true) :
    storeExplanationOk (update_llm s id t e) = true := by
  unfold update_llm
  cases hf : getLicense s id with
  | none => exact h
  | some lic =>
    by_cases hm : lic.decided_by = some "manual"
    · simp only [hm, if_pos]
      exact h
    · simp only [hm, if_false]
      exact storeExplanationOk_setRecord h (fun r => Or.inl (explanation_llmSet t e r))

theorem storeExplanationOk_upsertOne {s : Store} {lic : License}
    (h : storeExplanationOk s = true)
    (hlic : (lic.explanation.getD "").length ≤ 150) :
    storeExplanationOk (upsertOne s lic) = true := by
  cases hf : getLicense s lic.license_id with
  | some l =>
    rw [upsertOne_present hf]
    exact storeExplanationOk_setRecord h (fun r => Or.inr rfl)
  | none =>
    rw [upsertOne_absent hf, storeExplanationOk_iff]
    rw [storeExplanationOk_iff] at h
    intro r hr
    rcases List.mem_append.mp hr with hr1 | hr2
    · exact h r hr1
    · rw [List.mem_singleton.mp hr2]
      exact hlic

theorem storeExplanationOk_upsert_many {s : Store} (items : List License)
    (h : storeExplanationOk s = true)
    (hitems : ∀ lic ∈ items, (lic.explanation.getD "").length ≤ 150) :
    storeExplanationOk (upsert_many s items) = true := by
  induction items generalizing s with
  | nil => exact h
  | cons a rest ih =>
    exact ih
      (storeExplanationOk_upsertOne h (hitems a (List.mem_cons_self a rest)))
      (fun lic hl => hitems lic (List.mem_cons_of_mem a hl))

theorem storeExplanationOk_cycleFold (p : String → LLMResult) (L : List License) :
    ∀ (s : Store), storeExplanationOk s = true →
      storeExplanationOk (L.foldl (cycleStep p) s) = true := by
  induction L with
  | nil =>
    intro s h
    exact h
  | cons r rest ih =>
    intro s h
    rw [List.foldl_cons]
    apply ih
    unfold cycleStep
    by_cases hr : r.decided_by = some "manual"
    · simp only [hr, if_pos]
      exact h
    · simp only [hr, if_false]
      exact storeExplanationOk_update_llm _ _ _ h

theorem read_licenses_explanation_ok (rows : List (Int × String)) :
    ∀ lic ∈ read_licenses rows, (lic.explanation.getD "").length ≤ 150 := by
  intro lic hl
  rcases List.mem_map.mp hl with ⟨p, _, rfl⟩
  show (0 : Nat) ≤ 150
  exact Nat.zero_le 150

theorem storeExplanationOk_cycle {s : Store} (p : String → LLMResult)
    (rows : List (Int × String)) (h : storeExplanationOk s = true) :
    storeExplanationOk (run_classification_cycle p (read_licenses rows) s) = true := by
  unfold run_classification_cycle
  exact storeExplanationOk_cycleFold p _ _
    (storeExplanationOk_upsert_many _ h (read_licenses_explanation_ok rows))

/-! ### list_all facts -/

theorem list_all_perm (s : Store) : (list_all s).Perm s :=
  List.perm_insertionSort licLe s

theorem list_all_sorted (s : Store) : List.Sorted licLe (list_all s) :=
  List.sorted_insertionSort licLe s

theorem mem_list_all {s : Store} {r : License} (h : r ∈ s) : r ∈ list_all s :=
  (list_all_perm s).mem_iff.mpr h

theorem nodup_ids_list_all {s : Store} (h : (ids s).Nodup) :
    (ids (list_all s)).Nodup :=
  (((list_all_perm s).map License.license_id).nodup_iff).mpr h

/-! ### Claim theorems -/

/-- C1: For every record whose `decided_by` equals `"manual"`, running any
number of classification cycles (`run_classification_cycle` / POST /classify),
each with an arbitrary provider behaviour and an arbitrary ingested
spreadsheet, leaves that record's `typology`, `explanation` and `decided_by`
unchanged. -/
theorem C1_manual_override_protected (runs : List CycleRun) (store : Store)
    (id : Int) (lic : License)
    (hfind : getLicense store id = some lic)
    (hman : lic.decided_by = some "manual") :
    ∃ lic2, getLicense (run_cycles runs store) id = some lic2 ∧
      lic2.typology = lic.typology ∧
      lic2.explanation = lic.explanation ∧
      lic2.decided_by = lic.decided_by := by
  induction runs generalizing store lic with
  | nil => exact ⟨lic, hfind, rfl, rfl, rfl⟩
  | cons run rest ih =>
    rcases manual_preserved_one_cycle hfind hman
      with ⟨d, hd⟩
    have hm2 : ({ lic with license_description := d } : License).decided_by =
        some "manual" := hman
    rcases ih (run_classification_cycle run.provider run.input store)
      { lic with license_description := d } hd hm2 with ⟨lic2, h2, ht, he, hdb⟩
    exact ⟨lic2, h2, ht, he, hdb⟩

theorem C1_manual_override_protected_witness :
    ∃ lic2, getLicense (run_cycles
        [⟨fun _ => ⟨"Marketing", "auto"⟩, [⟨2, "Zoom", none, none, none⟩]⟩,
         ⟨fun _ => ⟨"Design", "auto2"⟩, []⟩]
        [⟨7, "Photoshop", some "Finance", some "expert decision", some "manual"⟩,
         ⟨1, "Office", none, none, none⟩]) 7 = some lic2 ∧
      lic2.typology = some "Finance" ∧
      lic2.explanation = some "expert decision" ∧
      lic2.decided_by = some "manual" :=
  C1_manual_override_protected
    [⟨fun _ => ⟨"Marketing", "auto"⟩, [⟨2, "Zoom", none, none, none⟩]⟩,
     ⟨fun _ => ⟨"Design", "auto2"⟩, []⟩]
    [⟨7, "Photoshop", some "Finance", some "expert decision", some "manual"⟩,
     ⟨1, "Office", none, none, none⟩]
    7 ⟨7, "Photoshop", some "Finance", some "expert decision", some "manual"⟩
    (by decide) (by decide)

/-- C2 counterexample: `update_manual` (PATCH /licenses/1) accepts the
typology "NotARealLabel", which is outside the six-label set, and stores it
verbatim. -/
theorem C2_counterexample :
    (getLicense (patch_license [⟨1, "Slack", none, none, none⟩]
        1 "NotARealLabel" "chat tool").1 1).map License.typology =
      some (some "NotARealLabel") ∧
    "NotARealLabel" ∉ ALLOWED := by
  constructor
  · decide
  · decide

/-- C2 (amended): whenever `typology` is set by the automated path it is a
member of the six-label set (both backends' extraction guarantees membership),
but `apply_manual` stores the caller-supplied typology string verbatim and
unvalidated, so the six-label invariant holds for manual updates only when the
caller supplies a member label. -/
theorem C2_amended (obj : ParsedObj) (s : Store) (id : Int) (t e : String)
    (s2 : Store) (lic : License)
    (h : update_manual s id t e = Except.ok (s2, lic)) :
    (ollama_classify_extract obj).typology ∈ ALLOWED ∧
    (openai_classify_extract obj).typology ∈ ALLOWED ∧
    lic.typology = some t := by
  refine ⟨ollama_extract_typology_mem obj, ?_, ?_⟩
  · have heq : openai_classify_extract obj = ollama_classify_extract obj := rfl
    rw [heq]
    exact ollama_extract_typology_mem obj
  · cases hf : getLicense s id with
    | none => simp [update_manual, hf] at h
    | some l0 =>
      simp only [update_manual, hf, Except.ok.injEq, Prod.mk.injEq] at h
      rw [← h.2]
      rfl

theorem C2_amended_witness :
    (ollama_classify_extract ⟨some "Garbage", some "x"⟩).typology ∈ ALLOWED ∧
    (openai_classify_extract ⟨some "Garbage", some "x"⟩).typology ∈ ALLOWED ∧
    (⟨1, "Slack", some "Development", some "ide", some "manual"⟩ : License).typology =
      some "Development" :=
  C2_amended ⟨some "Garbage", some "x"⟩ [⟨1, "Slack", none, none, none⟩] 1
    "Development" "ide"
    [⟨1, "Slack", some "Development", some "ide", some "manual"⟩]
    ⟨1, "Slack", some "Development", some "ide", some "manual"⟩
    (by rfl)

/-- C3 counterexample: after a successful classification cycle on a fresh
record, the code stores `decided_by = "llm"`, not the value "automated"
stated by the claim. -/
theorem C3_counterexample :
    (getLicense (run_classification_cycle (fun _ => ⟨"Marketing", "auto"⟩) []
        [⟨1, "Office", none, none, none⟩]) 1).map License.decided_by =
      some (some "llm") ∧
    (some "llm" : Option String) ≠ some "automated" := by
  constructor
  · decide
  · decide

/-- C3 (amended): for every record whose `decided_by` is not `"manual"`
before the cycle, after a classification cycle (with either backend's
extraction as provider) the record's `typology` is a member of the six-label
set and its `decided_by` equals `"llm"` — the code's literal marker for
automated classification (the spec's abstract actor "automated"). -/
theorem C3_amended (store : Store) (input : List License)
    (reply : String → ParsedObj) (id : Int) (lic : License)
    (hnodup : (ids store).Nodup)
    (hfind : getLicense store id = some lic)
    (hnm : lic.decided_by ≠ some "manual") :
    ∃ lic2, getLicense (run_classification_cycle
        (fun name => ollama_classify_extract (reply name)) input store) id =
          some lic2 ∧
      (∃ t, lic2.typology = some t ∧ t ∈ ALLOWED) ∧
      lic2.decided_by = some "llm" := by
  rcases getLicense_upsert_many_evol input hfind with ⟨d, hd⟩
  set l1 : License := { lic with license_description := d } with hl1
  have hn1 : (ids (upsert_many store input)).Nodup :=
    nodup_ids_upsert_many input hnodup
  have hmemL : l1 ∈ list_all (upsert_many store input) :=
    mem_list_all (mem_of_getLicense hd)
  have hnL : (ids (list_all (upsert_many store input))).Nodup :=
    nodup_ids_list_all hn1
  have hid1 : l1.license_id = id := license_id_of_getLicense hd
  have hnm1 : l1.decided_by ≠ some "manual" := hnm
  have hs : getLicense (upsert_many store input) l1.license_id = some l1 := by
    rw [hid1]
    exact hd
  have hfold := cycleFold_classifies_of_nodup
    (fun name => ollama_classify_extract (reply name))
    (list_all (upsert_many store input)) l1
    (upsert_many store input) hnL hmemL hs hnm1
  refine ⟨llmSet (ollama_classify_extract (reply l1.license_description)).typology
      (ollama_classify_extract (reply l1.license_description)).explanation l1, ?_, ?_, rfl⟩
  · show getLicense ((list_all (upsert_many store input)).foldl
        (cycleStep (fun name => ollama_classify_extract (reply name)))
        (upsert_many store input)) id = _
    rw [← hid1]
    exact hfold
  · exact ⟨(ollama_classify_extract (reply l1.license_description)).typology, rfl,
      ollama_extract_typology_mem (reply l1.license_description)⟩

theorem C3_amended_witness :
    ∃ lic2, getLicense (run_classification_cycle
        (fun name => ollama_classify_extract
          ((fun _ => ⟨some "Marketing", some "ads"⟩ : String → ParsedObj) name))
        [] [⟨1, "Office", none, none, none⟩]) 1 = some lic2 ∧
      (∃ t, lic2.typology = some t ∧ t ∈ ALLOWED) ∧
      lic2.decided_by = some "llm" :=
  C3_amended [⟨1, "Office", none, none, none⟩] []
    (fun _ => ⟨some "Marketing", some "ads"⟩) 1
    ⟨1, "Office", none, none, none⟩
    (by decide) (by decide) (by decide)

/-- C4: for every input string, including strings longer than 150 characters,
every update path leaves every stored explanation at most 150 characters
long: the classify extraction truncates to 150, and `update_llm`, the manual
PATCH path and a whole classification cycle all preserve the bound on the
store. -/
theorem C4_explanation_bounded (s : Store) (id : Int) (t e : String)
    (p : String → LLMResult) (rows : List (Int × String)) (obj : ParsedObj)
    (h : storeExplanationOk s = true) :
    (ollama_classify_extract obj).explanation.length ≤ 150 ∧
    storeExplanationOk (update_llm s id t e) = true ∧
    storeExplanationOk (patch_license s id t e).1 = true ∧
    storeExplanationOk (run_classification_cycle p (read_licenses rows) s) = true := by
  refine ⟨ollama_extract_explanation_le obj,
    storeExplanationOk_update_llm id t e h, ?_,
    storeExplanationOk_cycle p rows h⟩
  unfold patch_license update_manual
  cases hf : getLicense s id with
  | none => exact h
  | some l0 =>
    exact storeExplanationOk_setRecord h
      (fun r => Or.inl (explanation_manualSet t e r))

theorem C4_explanation_bounded_witness :
    (ollama_classify_extract
        ⟨some "Productivity", some (String.mk (List.replicate 200 'x'))⟩).explanation.length ≤ 150 ∧
    storeExplanationOk (update_llm [⟨1, "Office", none, none, none⟩] 1
      "Design" (String.mk (List.replicate 200 'y'))) = true ∧
    storeExplanationOk (patch_license [⟨1, "Office", none, none, none⟩] 1
      "Design" (String.mk (List.replicate 200 'y'))).1 = true ∧
    storeExplanationOk (run_classification_cycle
      (fun _ => ⟨"Design", String.mk (List.replicate 200 'z')⟩)
      (read_licenses [(2, "Zoom")]) [⟨1, "Office", none, none, none⟩]) = true :=
  C4_explanation_bounded [⟨1, "Office", none, none, none⟩] 1
    "Design" (String.mk (List.replicate 200 'y'))
    (fun _ => ⟨"Design", String.mk (List.replicate 200 'z')⟩)
    [(2, "Zoom")]
    ⟨some "Productivity", some (String.mk (List.replicate 200 'x'))⟩
    (by decide)

/-- C5: after parsing, the extraction step replaces a typology outside the
six-label set by "Productivity", substitutes the fixed fallback sentence
exactly when the stripped, truncated explanation is empty (keeping a
non-empty one verbatim), never changes an in-set result, and always returns
a typology in the six-label set with an explanation of at most 150
characters. -/
theorem C5_fallback_policy (obj : ParsedObj) :
    ollama_classify_extract obj =
      (if pyStrip (obj.typology.getD "") ∈ ALLOWED then
        { typology := pyStrip (obj.typology.getD ""),
          explanation := pyTrunc (pyStrip (obj.explanation.getD "")) 150 }
      else
        { typology := "Productivity",
          explanation :=
            if pyTrunc (pyStrip (obj.explanation.getD "")) 150 = "" then
              FALLBACK_EXPLANATION
            else pyTrunc (pyStrip (obj.explanation.getD "")) 150 }) ∧
    (ollama_classify_extract obj).typology ∈ ALLOWED ∧
    (ollama_classify_extract obj).explanation.length ≤ 150 := by
  refine ⟨?_, ollama_extract_typology_mem obj, ollama_extract_explanation_le obj⟩
  unfold ollama_classify_extract
  by_cases ht : pyStrip (obj.typology.getD "") ∈ ALLOWED
  · rw [if_pos ht, if_pos ht]
  · rw [if_neg ht, if_neg ht]
    by_cases he : pyTrunc (pyStrip (obj.explanation.getD "")) 150 = ""
    · rw [if_pos he]
      have hfb : pyTrunc FALLBACK_EXPLANATION 150 = FALLBACK_EXPLANATION := by decide
      rw [hfb]
    · rw [if_neg he]
      have htt : pyTrunc (pyTrunc (pyStrip (obj.explanation.getD "")) 150) 150 =
          pyTrunc (pyStrip (obj.explanation.getD "")) 150 := by
        unfold pyTrunc
        rw [List.take_take, Nat.min_self]
      rw [htt]

/-- C6: `upsert_many` replaces only `license_description` on records whose
`license_id` already exists — the stored description becomes the stripped
value of the ingested row while `typology`, `explanation` and `decided_by` stay
unchanged — inserts unknown ids with all classification fields absent,
accepts empty input, and is idempotent on identical input. -/
theorem C6_upsert_contract (s : Store) (rows : List (Int × String))
    (id id2 : Int) (lic : License) (d1 d2 : String)
    (hnodup : (rows.map Prod.fst).Nodup)
    (hfind : getLicense s id = some lic)
    (hmem1 : (id, d1) ∈ rows)
    (habs : getLicense s id2 = none)
    (hmem2 : (id2, d2) ∈ rows) :
    getLicense (upsert_many s (read_licenses rows)) id =
      some { lic with license_description := pyStrip d1 } ∧
    getLicense (upsert_many s (read_licenses rows)) id2 =
      some ⟨id2, pyStrip d2, none, none, none⟩ ∧
    upsert_many s [] = s ∧
    upsert_many (upsert_many s (read_licenses rows)) (read_licenses rows) =
      upsert_many s (read_licenses rows) := by
  have hids : ids (read_licenses rows) = rows.map Prod.fst := by
    simp [ids, read_licenses]
  have hnd : (ids (read_licenses rows)).Nodup := by
    rw [hids]
    exact hnodup
  have ha1 : (⟨id, pyStrip d1, none, none, none⟩ : License) ∈ read_licenses rows :=
    List.mem_map.mpr ⟨(id, d1), hmem1, rfl⟩
  have ha2 : (⟨id2, pyStrip d2, none, none, none⟩ : License) ∈ read_licenses rows :=
    List.mem_map.mpr ⟨(id2, d2), hmem2, rfl⟩
  exact ⟨getLicense_upsert_many_updated (read_licenses rows) ha1 hnd hfind,
    getLicense_upsert_many_inserted (read_licenses rows) ha2 hnd habs,
    rfl, upsert_many_idem _ s hnd⟩

theorem C6_upsert_contract_witness :
    getLicense (upsert_many
        [⟨1, "Office", some "Productivity", some "suite", some "llm"⟩]
        (read_licenses [(1, " Office 365 "), (2, "Zoom")])) 1 =
      some ⟨1, pyStrip " Office 365 ", some "Productivity", some "suite", some "llm"⟩ ∧
    getLicense (upsert_many
        [⟨1, "Office", some "Productivity", some "suite", some "llm"⟩]
        (read_licenses [(1, " Office 365 "), (2, "Zoom")])) 2 =
      some ⟨2, pyStrip "Zoom", none, none, none⟩ ∧
    upsert_many [⟨1, "Office", some "Productivity", some "suite", some "llm"⟩] [] =
      [⟨1, "Office", some "Productivity", some "suite", some "llm"⟩] ∧
    upsert_many (upsert_many
        [⟨1, "Office", some "Productivity", some "suite", some "llm"⟩]
        (read_licenses [(1, " Office 365 "), (2, "Zoom")]))
      (read_licenses [(1, " Office 365 "), (2, "Zoom")]) =
      upsert_many [⟨1, "Office", some "Productivity", some "suite", some "llm"⟩]
        (read_licenses [(1, " Office 365 "), (2, "Zoom")]) :=
  C6_upsert_contract [⟨1, "Office", some "Productivity", some "suite", some "llm"⟩]
    [(1, " Office 365 "), (2, "Zoom")] 1 2
    ⟨1, "Office", some "Productivity", some "suite", some "llm"⟩ " Office 365 " "Zoom"
    (by decide) (by decide) (by decide) (by decide) (by decide)

/-- C7: for a `license_id` absent from the store, the manual path fails with
the NotFound error (surfaced as HTTP 404 with the store unchanged), while
the automated path is a silent no-op returning the store unchanged. -/
theorem C7_absent_id (s : Store) (id : Int) (t e : String)
    (h : getLicense s id = none) :
    update_manual s id t e = Except.error "License not found" ∧
    patch_license s id t e = (s, 404, none) ∧
    update_llm s id t e = s := by
  have h1 : update_manual s id t e = Except.error "License not found" := by
    simp [update_manual, h]
  refine ⟨h1, ?_, ?_⟩
  · simp [patch_license, h1]
  · simp [update_llm, h]

theorem C7_absent_id_witness :
    update_manual [⟨1, "Office", none, none, none⟩] 9 "Design" "why" =
      Except.error "License not found" ∧
    patch_license [⟨1, "Office", none, none, none⟩] 9 "Design" "why" =
      ([⟨1, "Office", none, none, none⟩], 404, none) ∧
    update_llm [⟨1, "Office", none, none, none⟩] 9 "Design" "why" =
      [⟨1, "Office", none, none, none⟩] :=
  C7_absent_id [⟨1, "Office", none, none, none⟩] 9 "Design" "why" (by decide)

/-- C8 counterexample: the two backends do not build the prompt from one
shared template — at the sample license name the local backend's prompt text
differs from the remote backend's user message. -/
theorem C8_counterexample :
    _prompt "Microsoft Office 365" ≠ openaiUserMsg "Microsoft Office 365" := by
  decide

/-- C8 (amended): the two classification backends share steps 4–5 verbatim —
their post-parse extraction, trimming, truncation and fallback logic agree on
every parsed model output — but step 1 is not shared: each backend builds its
prompt from its own template, and the two prompt texts differ for every
license name. -/
theorem C8_shared_fallback_distinct_prompts (obj : ParsedObj) (name : String) :
    ollama_classify_extract obj = openai_classify_extract obj ∧
    _prompt name ≠ openaiUserMsg name := by
  refine ⟨rfl, ?_⟩
  intro h
  have h10 : (_prompt name).data.take 10 = (openaiUserMsg name).data.take 10 := by
    rw [h]
  have e1 : (_prompt name).data.take 10 = ("Classify t" : String).data := by
    unfold _prompt
    rw [String.data_append, List.take_append_of_le_length (by decide)]
    decide
  have e2 : (openaiUserMsg name).data.take 10 = ("Classify \"" : String).data := by
    unfold openaiUserMsg
    rw [String.data_append, List.take_append_of_le_length (by decide)]
    decide
  rw [e1, e2] at h10
  exact absurd h10 (by decide)

/-- C9 counterexample: exporting the (empty) result of `list_all` on an empty
store writes a table with no columns at all — `pd.DataFrame` infers columns
from the row dicts, and there are none — not the five specified columns. -/
theorem C9_counterexample :
    (export_to_xlsx (list_all ([] : Store))).columns = [] ∧
    ([] : List String) ≠ exportColumnNames := by
  exact ⟨rfl, by decide⟩

/-- C9 (amended): for every nonempty store, the export writes exactly the
five columns "License ID", "License Description", "Typology", "Explanation",
"Decided By" in that order, with one row per record in the order returned by
`list_all`, which is ascending by `license_id` and contains every record. -/
theorem C9_export_format (s : Store) (h : s ≠ []) :
    (export_to_xlsx (list_all s)).columns = exportColumnNames ∧
    (export_to_xlsx (list_all s)).rows = (list_all s).map exportRow ∧
    List.Sorted licLe (list_all s) ∧
    (list_all s).Perm s := by
  have hne : list_all s ≠ [] := by
    intro he
    have hp := list_all_perm s
    rw [he] at hp
    exact h hp.symm.eq_nil
  refine ⟨?_, rfl, list_all_sorted s, list_all_perm s⟩
  cases hL : list_all s with
  | nil => exact absurd hL hne
  | cons a L => rfl

theorem C9_export_format_witness :
    (export_to_xlsx (list_all
        [⟨2, "Zoom", none, none, none⟩,
         ⟨1, "Office", some "Productivity", some "suite", some "llm"⟩])).columns =
      exportColumnNames ∧
    (export_to_xlsx (list_all
        [⟨2, "Zoom", none, none, none⟩,
         ⟨1, "Office", some "Productivity", some "suite", some "llm"⟩])).rows =
      (list_all
        [⟨2, "Zoom", none, none, none⟩,
         ⟨1, "Office", some "Productivity", some "suite", some "llm"⟩]).map exportRow ∧
    List.Sorted licLe (list_all
        [⟨2, "Zoom", none, none, none⟩,
         ⟨1, "Office", some "Productivity", some "suite", some "llm"⟩]) ∧
    (list_all
        [⟨2, "Zoom", none, none, none⟩,
         ⟨1, "Office", some "Productivity", some "suite", some "llm"⟩]).Perm
      [⟨2, "Zoom", none, none, none⟩,
       ⟨1, "Office", some "Productivity", some "suite", some "llm"⟩] :=
  C9_export_format
    [⟨2, "Zoom", none, none, none⟩,
     ⟨1, "Office", some "Productivity", some "suite", some "llm"⟩]
    (by decide)

/-- C10: `get_llm_client` returns the remote OpenAI backend exactly when the
provider selector lowercases to "openai" (case-insensitive match); every
other selector value, including the empty string, silently selects the local
Ollama backend — the function is total and never raises. -/
theorem C10_provider_selection (sel : String) :
    (get_llm_client sel = ProviderKind.openai ↔ pyLower sel = pyLower "openai") ∧
    (get_llm_client sel = ProviderKind.openai ∨
      get_llm_client sel = ProviderKind.ollama) ∧
    get_llm_client "" = ProviderKind.ollama := by
  have hlow : pyLower "openai" = "openai" := rfl
  refine ⟨?_, ?_, rfl⟩
  · rw [hlow]
    unfold get_llm_client
    by_cases hc : pyLower sel = "openai"
    · simp [hc]
    · simp [hc]
  · unfold get_llm_client
    by_cases hc : pyLower sel = "openai"
    · exact Or.inl (by simp [hc])
    · exact Or.inr (by simp [hc])
